import Mathlib

/-!
A shallow embedding of the teemo debug-info synthesizer (`src/main.rs`) and
proofs about its resolver, populator and object assembler.

The Rust program reads a catalogue of Binary Ninja types and global
variables, resolves the cyclic type graph into a tree of DWARF debugging
entries (`visit`), populates each entry's attributes, and assembles a
minimal ELF object file (string tables, symbol table, section headers).

Modelling conventions:
  * `BTreeMap<K, V>` values are modelled as association lists
    `List (K × V)`; `u64`/`u32` fields as `Nat`, with the one wrapping
    subtraction in the source modelled explicitly modulo `2 ^ 64`;
  * `gimli::write::UnitEntryId` handles are modelled as the `Nat` counter
    value at allocation time: `dwarf.unit.add` always returns a fresh id;
  * fallible operations (`Option::unwrap` on map lookups, which aborts the
    run) are modelled with `Except`;
  * recursion in `visit` is bounded by explicit fuel; the termination
    theorem shows fuel `|catalogue| + 1` never runs out.
-/

namespace Teemo

/-- Rust `struct Field` (main.rs:37): one structure/union member. -/
structure Field where
  offset : Nat
  name : String
  typename : String
deriving DecidableEq

/-- Rust `struct Structure` (main.rs:44). -/
structure Structure where
  size : Nat
  anon : Bool
  fields : List Field
deriving DecidableEq

/-- Rust `type Union = Structure` (main.rs:51). -/
abbrev Union := Structure

/-- Rust `struct Pointer` (main.rs:53). -/
structure Pointer where
  size : Nat
  target : String
deriving DecidableEq

/-- Rust `struct Typedef` (main.rs:59). -/
structure Typedef where
  target : String
deriving DecidableEq

/-- Rust `struct Parameter` (main.rs:64). -/
structure Parameter where
  name : String
  typename : String
deriving DecidableEq

/-- Rust `struct Function` (main.rs:70): a function signature type. -/
structure Function where
  parameters : List Parameter
  returntype : String
deriving DecidableEq

/-- Rust `struct Array` (main.rs:76). -/
structure Array where
  count : Nat
  target : String
deriving DecidableEq

/-- Rust `struct EnumField` (main.rs:82). -/
structure EnumField where
  name : String
  value : Nat
deriving DecidableEq

/-- Rust `struct Enum` (main.rs:89). -/
structure Enum where
  size : Nat
  signed : Bool
  fields : List EnumField
deriving DecidableEq

/-- Rust `struct Integer` (main.rs:96). -/
structure Integer where
  size : Nat
  signed : Bool
deriving DecidableEq

/-- Rust `struct GlobalVariable` (main.rs:102). -/
structure GlobalVariable where
  name : String
  size : Nat
  typename : String
deriving DecidableEq

/-- Rust `enum BinjaType` (main.rs:109): one catalogue entry. -/
inductive BinjaType where
  | Structure (s : Structure)
  | Union (u : Union)
  | Integer (i : Integer)
  | Pointer (p : Pointer)
  | Typedef (t : Typedef)
  | Function (f : Function)
  | Enum (e : Enum)
  | Array (a : Array)
deriving DecidableEq

/-- The type catalogue `mappings : BTreeMap<String, BinjaType>` as an
association list. -/
abbrev TypeMap := List (String × BinjaType)

/-- The resolver's mutable context: the fresh-id counter of
`dwarf.unit.add` and the `dwarf_types : BTreeMap<String, UnitEntryId>`
map.  A new entry handle is the counter value at allocation time. -/
structure ResolveState where
  next : Nat
  dwarf_types : List (String × Nat)
deriving DecidableEq

/-- The TypeNames a catalogue entry makes `visit` recurse into, in source
order (main.rs:203-230): struct/union field types, pointer target, typedef
target, function return type then parameter types, array element type. -/
def typeRefs : BinjaType → List String
  | .Structure s => s.fields.map (·.typename)
  | .Union u => u.fields.map (·.typename)
  | .Pointer p => [p.target]
  | .Typedef t => [t.target]
  | .Function f => f.returntype :: f.parameters.map (·.typename)
  | .Array a => [a.target]
  | .Integer _ => []
  | .Enum _ => []

/-- How a run of the resolver can abort: `fuelOut` is an artifact of the
fuel-bounded model (shown unreachable with enough fuel), `missing` models
the `mappings.get(name).unwrap()` panic on an unresolvable name
(main.rs:190). -/
inductive VErr where
  | fuelOut
  | missing (name : String)
deriving DecidableEq

/-- Sequencing of fallible visits over a list of names: the body of the
`for_each` / iterator loops inside `visit` (and of the top-level
`for name in type_mapping.keys()` loop, main.rs:303). -/
def listFold (f : ResolveState → String → Except VErr ResolveState) :
    ResolveState → List String → Except VErr ResolveState
  | st, [] => .ok st
  | st, n :: ns =>
    match f st n with
    | .error e => .error e
    | .ok st1 => listFold f st1 ns

/-- Rust `fn visit` (main.rs:180-231).  If the name is already registered
or empty, return at once; otherwise look the name up in the catalogue
(`unwrap` panic if absent), register a fresh entry handle in the map
*before* recursing, then visit every referenced TypeName. -/
def visit (m : TypeMap) : Nat → ResolveState → String → Except VErr ResolveState
  | 0, _, _ => .error .fuelOut
  | fuel + 1, st, name =>
    if (st.dwarf_types.lookup name).isSome || name.length == 0 then
      .ok st
    else
      match m.lookup name with
      | none => .error (.missing name)
      | some t =>
        listFold (visit m fuel)
          { next := st.next + 1, dwarf_types := (name, st.next) :: st.dwarf_types }
          (typeRefs t)

/-- The resolver pass, main.rs:302-305: start from an empty map and call
`visit` on every top-level catalogue key. -/
def resolveAll (m : TypeMap) : Except VErr ResolveState :=
  listFold (visit m (m.length + 1)) { next := 0, dwarf_types := [] } (m.map Prod.fst)

/-! ### Association-list facts used throughout -/

theorem lookup_mem {α : Type} {l : List (String × α)} {k : String} {v : α}
    (h : l.lookup k = some v) : (k, v) ∈ l := by
  induction l with
  | nil => simp [List.lookup] at h
  | cons p rest ih =>
    obtain ⟨k', v'⟩ := p
    simp only [List.lookup] at h
    by_cases hk : k = k'
    · subst hk
      simp only [beq_self_eq_true] at h
      cases h
      exact List.mem_cons_self _ _
    · rw [show (k == k') = false by simp [hk]] at h
      exact List.mem_cons_of_mem _ (ih h)

theorem lookup_none_iff {α : Type} {l : List (String × α)} {k : String} :
    l.lookup k = none ↔ k ∉ l.map Prod.fst := by
  induction l with
  | nil => simp [List.lookup]
  | cons p rest ih =>
    obtain ⟨k', v'⟩ := p
    simp only [List.lookup, List.map_cons, List.mem_cons]
    by_cases hk : k = k'
    · subst hk; simp
    · rw [show (k == k') = false by simp [hk]]
      simp [hk, ih]

theorem lookup_isSome_iff {α : Type} {l : List (String × α)} {k : String} :
    (l.lookup k).isSome = true ↔ k ∈ l.map Prod.fst := by
  cases hl : l.lookup k with
  | none =>
    simp only [Option.isSome_none, false_iff, Bool.false_eq_true]
    exact lookup_none_iff.1 hl
  | some v =>
    simp only [Option.isSome_some, true_iff]
    exact List.mem_map.2 ⟨(k, v), lookup_mem hl, rfl⟩

/-! ### Generic filter-length facts -/

theorem length_filter_lt {α : Type} {p q : α → Bool} (l : List α)
    (himp : ∀ x, q x = true → p x = true) (a : α) (ha : a ∈ l)
    (hpa : p a = true) (hqa : q a = false) :
    (l.filter q).length < (l.filter p).length := by
  induction l with
  | nil => cases ha
  | cons b t ih =>
    by_cases hab : p b = true
    · rw [List.filter_cons_of_pos hab]
      by_cases hqb : q b = true
      · rw [List.filter_cons_of_pos hqb]
        have hat : a ∈ t := by
          rcases List.mem_cons.1 ha with h | h
          · subst h; rw [hqa] at hqb; cases hqb
          · exact h
        simpa [Nat.succ_lt_succ_iff] using ih hat
      · rw [List.filter_cons_of_neg (by simpa using hqb)]
        have : (t.filter q).length ≤ (t.filter p).length :=
          (List.monotone_filter_right t himp).length_le
        simp only [List.length_cons]
        omega
    · have hqb : q b = false := by
        cases h : q b
        · rfl
        · exact absurd (himp b h) hab
      rw [List.filter_cons_of_neg (by simpa using hqb),
        List.filter_cons_of_neg (by simpa using hab)]
      have hat : a ∈ t := by
        rcases List.mem_cons.1 ha with h | h
        · subst h; rw [hpa] at hab; exact absurd rfl hab
        · exact h
      exact ih hat

theorem string_length_ne_zero {s : String} (h : s ≠ "") : s.length ≠ 0 := by
  intro h0
  apply h
  cases s with
  | mk data =>
    cases data with
    | nil => rfl
    | cons c cs => simp [String.length] at h0

/-! ### Resolver facts: monotonicity, invariants, termination -/

/-- `visit` only ever adds bindings to `dwarf_types`: every existing
binding survives a (sequence of) visits unchanged. -/
theorem visit_mono (m : TypeMap) : ∀ fuel : Nat,
    (∀ st name st', visit m fuel st name = .ok st' →
      ∀ k v, st.dwarf_types.lookup k = some v → st'.dwarf_types.lookup k = some v) ∧
    (∀ ns st st', listFold (visit m fuel) st ns = .ok st' →
      ∀ k v, st.dwarf_types.lookup k = some v → st'.dwarf_types.lookup k = some v) := by
  intro fuel
  induction fuel with
  | zero =>
    constructor
    · intro st name st' h
      simp [visit] at h
    · intro ns st st' h k v hk
      cases ns with
      | nil =>
        simp only [listFold] at h
        cases h
        exact hk
      | cons n ns => simp [listFold, visit] at h
  | succ fuel ih =>
    have hP : ∀ st name st', visit m (fuel + 1) st name = .ok st' →
        ∀ k v, st.dwarf_types.lookup k = some v → st'.dwarf_types.lookup k = some v := by
      intro st name st' h k v hk
      simp only [visit] at h
      split at h
      · cases h
        exact hk
      · rename_i hg
        split at h
        · cases h
        · rename_i t ht
          have hnone : st.dwarf_types.lookup name = none := by
            cases hl : st.dwarf_types.lookup name with
            | none => rfl
            | some w => rw [hl] at hg; simp at hg
          have hkname : k ≠ name := by
            intro he
            rw [he, hnone] at hk
            cases hk
          refine ih.2 (typeRefs t) _ st' h k v ?_
          simpa [List.lookup, show (k == name) = false by simp [hkname]] using hk
    refine ⟨hP, ?_⟩
    intro ns
    induction ns with
    | nil =>
      intro st st' h k v hk
      simp only [listFold] at h
      cases h
      exact hk
    | cons n ns ihn =>
      intro st st' h k v hk
      simp only [listFold] at h
      cases hv : visit m (fuel + 1) st n with
      | error e => rw [hv] at h; cases h
      | ok st1 =>
        rw [hv] at h
        exact ihn st1 st' h k v (hP st n st1 hv k v hk)

/-- The resolver's state invariant: registered names are distinct,
handles are distinct, every handle is below the fresh counter, and every
registered name is a non-empty catalogue key. -/
def StInv (m : TypeMap) (st : ResolveState) : Prop :=
  (st.dwarf_types.map Prod.fst).Nodup ∧
  (st.dwarf_types.map Prod.snd).Nodup ∧
  ∀ p ∈ st.dwarf_types, p.2 < st.next ∧ p.1 ∈ m.map Prod.fst ∧ p.1 ≠ ""

theorem StInv_insert {m : TypeMap} {st : ResolveState} {name : String} {t : BinjaType}
    (hinv : StInv m st) (hnone : st.dwarf_types.lookup name = none)
    (hmem : m.lookup name = some t) (hne : name ≠ "") :
    StInv m { next := st.next + 1, dwarf_types := (name, st.next) :: st.dwarf_types } := by
  obtain ⟨h1, h2, h3⟩ := hinv
  refine ⟨?_, ?_, ?_⟩
  · simp only [List.map_cons, List.nodup_cons]
    exact ⟨lookup_none_iff.1 hnone, h1⟩
  · simp only [List.map_cons, List.nodup_cons]
    refine ⟨?_, h2⟩
    intro hmem'
    rcases List.mem_map.1 hmem' with ⟨p, hp, hsnd⟩
    have := (h3 p hp).1
    omega
  · intro p hp
    rcases List.mem_cons.1 hp with h | h
    · subst h
      exact ⟨Nat.lt_succ_self _, List.mem_map.2 ⟨(name, t), lookup_mem hmem, rfl⟩, hne⟩
    · obtain ⟨ha, hb, hc⟩ := h3 p h
      exact ⟨Nat.lt_succ_of_lt ha, hb, hc⟩

/-- `visit` preserves the state invariant. -/
theorem visit_inv (m : TypeMap) : ∀ fuel : Nat,
    (∀ st name st', visit m fuel st name = .ok st' → StInv m st → StInv m st') ∧
    (∀ ns st st', listFold (visit m fuel) st ns = .ok st' → StInv m st → StInv m st') := by
  intro fuel
  induction fuel with
  | zero =>
    constructor
    · intro st name st' h
      simp [visit] at h
    · intro ns st st' h hinv
      cases ns with
      | nil =>
        simp only [listFold] at h
        cases h
        exact hinv
      | cons n ns => simp [listFold, visit] at h
  | succ fuel ih =>
    have hP : ∀ st name st', visit m (fuel + 1) st name = .ok st' →
        StInv m st → StInv m st' := by
      intro st name st' h hinv
      simp only [visit] at h
      split at h
      · cases h
        exact hinv
      · rename_i hg
        split at h
        · cases h
        · rename_i t ht
          rw [Bool.or_eq_true, not_or] at hg
          have hnone : st.dwarf_types.lookup name = none := by
            cases hl : st.dwarf_types.lookup name with
            | none => rfl
            | some w => rw [hl] at hg; simp at hg
          have hne : name ≠ "" := by
            intro he
            exact hg.2 (by simp [he])
          exact ih.2 (typeRefs t) _ st' h (StInv_insert hinv hnone ht hne)
    refine ⟨hP, ?_⟩
    intro ns
    induction ns with
    | nil =>
      intro st st' h hinv
      simp only [listFold] at h
      cases h
      exact hinv
    | cons n ns ihn =>
      intro st st' h hinv
      simp only [listFold] at h
      cases hv : visit m (fuel + 1) st n with
      | error e => rw [hv] at h; cases h
      | ok st1 =>
        rw [hv] at h
        exact ihn st1 st' h (hP st n st1 hv hinv)

/-- The number of catalogue keys not yet registered: the decreasing
measure behind the resolver's termination. -/
def unvisited (m : TypeMap) (st : ResolveState) : Nat :=
  ((m.map Prod.fst).filter (fun k => (st.dwarf_types.lookup k).isNone)).length

/-- The catalogue's documented well-formedness invariant: every TypeName
referenced by a catalogue entry is either the empty/void name or itself a
catalogue key. -/
def ClosedMap (m : TypeMap) : Prop :=
  ∀ p ∈ m, ∀ r ∈ typeRefs p.2, r = "" ∨ r ∈ m.map Prod.fst

instance (m : TypeMap) : Decidable (ClosedMap m) := by
  unfold ClosedMap
  infer_instance

theorem unvisited_le {m : TypeMap} {st st' : ResolveState}
    (h : ∀ k v, st.dwarf_types.lookup k = some v → st'.dwarf_types.lookup k = some v) :
    unvisited m st' ≤ unvisited m st := by
  apply List.Sublist.length_le
  apply List.monotone_filter_right
  intro k hk
  cases hl : st.dwarf_types.lookup k with
  | none => simp
  | some v =>
    rw [h k v hl] at hk
    cases hk

theorem unvisited_insert_lt {m : TypeMap} {st : ResolveState} {name : String}
    {t : BinjaType}
    (hnone : st.dwarf_types.lookup name = none) (hmem : m.lookup name = some t) :
    unvisited m
        { next := st.next + 1, dwarf_types := (name, st.next) :: st.dwarf_types } <
      unvisited m st := by
  apply length_filter_lt (m.map Prod.fst)
  · intro x hx
    by_cases hxn : x = name
    · subst hxn
      simp [List.lookup] at hx
    · rw [show ((((name, st.next) :: st.dwarf_types).lookup x).isNone) =
          ((st.dwarf_types.lookup x).isNone) by
        simp [List.lookup, show (x == name) = false by simp [hxn]]] at hx
      exact hx
  · exact List.mem_map.2 ⟨(name, t), lookup_mem hmem, rfl⟩
  · simp [hnone]
  · simp [List.lookup]

/-- With fuel exceeding the number of unvisited catalogue keys, `visit`
never exhausts its fuel and never panics on a closed catalogue: the
recursion terminates with a successful state. -/
theorem visit_total (m : TypeMap) (hcl : ClosedMap m) : ∀ fuel : Nat,
    (∀ st name, unvisited m st < fuel →
      (name = "" ∨ name ∈ m.map Prod.fst ∨ (st.dwarf_types.lookup name).isSome = true) →
      ∃ st', visit m fuel st name = .ok st') ∧
    (∀ ns st, unvisited m st < fuel →
      (∀ n ∈ ns, n = "" ∨ n ∈ m.map Prod.fst ∨ (st.dwarf_types.lookup n).isSome = true) →
      ∃ st', listFold (visit m fuel) st ns = .ok st') := by
  intro fuel
  induction fuel with
  | zero =>
    constructor
    · intro st name hu
      exact absurd hu (Nat.not_lt_zero _)
    · intro ns st hu
      exact absurd hu (Nat.not_lt_zero _)
  | succ fuel ih =>
    have hP : ∀ st name, unvisited m st < fuel + 1 →
        (name = "" ∨ name ∈ m.map Prod.fst ∨ (st.dwarf_types.lookup name).isSome = true) →
        ∃ st', visit m (fuel + 1) st name = .ok st' := by
      intro st name hu hcond
      by_cases hg : ((st.dwarf_types.lookup name).isSome || name.length == 0) = true
      · exact ⟨st, by simp [visit, hg]⟩
      · rw [Bool.or_eq_true, not_or] at hg
        have hnone : st.dwarf_types.lookup name = none := by
          cases hl : st.dwarf_types.lookup name with
          | none => rfl
          | some w => rw [hl] at hg; simp at hg
        have hname : name ∈ m.map Prod.fst := by
          rcases hcond with h | h | h
          · exact absurd (by simp [h]) hg.2
          · exact h
          · rw [hnone] at h; cases h
        obtain ⟨t, ht⟩ : ∃ t, m.lookup name = some t := by
          cases hmt : m.lookup name with
          | none => exact absurd hname (by simpa using lookup_none_iff.1 hmt)
          | some t => exact ⟨t, rfl⟩
        have hdec : unvisited m
            { next := st.next + 1,
              dwarf_types := (name, st.next) :: st.dwarf_types } < fuel := by
          have := unvisited_insert_lt hnone ht
          omega
        obtain ⟨st', hst'⟩ := ih.2 (typeRefs t) _ hdec (by
          intro r hr
          rcases hcl (name, t) (lookup_mem ht) r hr with h | h
          · exact Or.inl h
          · exact Or.inr (Or.inl h))
        refine ⟨st', ?_⟩
        simp only [visit]
        rw [if_neg (by rw [Bool.or_eq_true]; exact fun h => (not_or.2 hg) h), ht]
        exact hst'
    refine ⟨hP, ?_⟩
    intro ns
    induction ns with
    | nil =>
      intro st hu hcond
      exact ⟨st, rfl⟩
    | cons n ns ihn =>
      intro st hu hcond
      obtain ⟨st1, h1⟩ := hP st n hu (hcond n (List.mem_cons_self _ _))
      have hmono := (visit_mono m (fuel + 1)).1 st n st1 h1
      obtain ⟨st', h2⟩ := ihn st1 (Nat.lt_of_le_of_lt (unvisited_le hmono) hu) (by
        intro x hx
        rcases hcond x (List.mem_cons_of_mem _ hx) with h | h | h
        · exact Or.inl h
        · exact Or.inr (Or.inl h)
        · rcases Option.isSome_iff_exists.1 h with ⟨v, hv⟩
          exact Or.inr (Or.inr (by rw [hmono x v hv]; rfl)))
      refine ⟨st', ?_⟩
      simp only [listFold, h1]
      exact h2

/-- After a successful `visit` of a non-empty name, that name is
registered. -/
theorem visit_covers {m : TypeMap} {fuel : Nat} {st st' : ResolveState} {name : String}
    (h : visit m fuel st name = .ok st') (hne : name ≠ "") :
    (st'.dwarf_types.lookup name).isSome = true := by
  cases fuel with
  | zero => simp [visit] at h
  | succ fuel =>
    simp only [visit] at h
    split at h
    · rename_i hg
      cases h
      rw [Bool.or_eq_true] at hg
      rcases hg with hg | hg
      · exact hg
      · exact absurd (by simpa using hg) (string_length_ne_zero hne)
    · rename_i hg
      split at h
      · cases h
      · rename_i t ht
        have hlook : (((name, st.next) :: st.dwarf_types).lookup name) = some st.next := by
          simp [List.lookup]
        rw [(visit_mono m fuel).2 (typeRefs t) _ st' h name st.next hlook]
        rfl

/-- After a successful sequence of visits, every non-empty visited name is
registered. -/
theorem listFold_covers {m : TypeMap} {fuel : Nat} : ∀ {ns : List String}
    {st st' : ResolveState},
    listFold (visit m fuel) st ns = .ok st' →
    ∀ n ∈ ns, n ≠ "" → (st'.dwarf_types.lookup n).isSome = true := by
  intro ns
  induction ns with
  | nil =>
    intro st st' h n hn
    cases hn
  | cons x xs ih =>
    intro st st' h n hn hne
    simp only [listFold] at h
    cases hv : visit m fuel st x with
    | error e => rw [hv] at h; cases h
    | ok st1 =>
      rw [hv] at h
      rcases List.mem_cons.1 hn with he | he
      · subst he
        rcases Option.isSome_iff_exists.1 (visit_covers hv hne) with ⟨v, hv1⟩
        rw [(visit_mono m fuel).2 xs st1 st' h n v hv1]
        rfl
      · exact ih h n he hne

/-- C1: on any catalogue whose references all resolve (cycles through
pointer/typedef edges included), running the resolver over every top-level
TypeName terminates successfully, registers every distinct non-empty
catalogue key, and the resulting name-to-handle map is one-to-one: names
are pairwise distinct, entry handles are pairwise distinct, and every
registered name is a non-empty catalogue key.  This holds because each
entry is registered in `dwarf_types` before its references are visited. -/
theorem resolveAll_terminates_one_to_one (m : TypeMap) (hcl : ClosedMap m) :
    ∃ st, resolveAll m = .ok st ∧
      (∀ k ∈ m.map Prod.fst, k ≠ "" → (st.dwarf_types.lookup k).isSome = true) ∧
      (st.dwarf_types.map Prod.fst).Nodup ∧
      (st.dwarf_types.map Prod.snd).Nodup ∧
      ∀ p ∈ st.dwarf_types, p.1 ∈ m.map Prod.fst ∧ p.1 ≠ "" := by
  have h0 : unvisited m { next := 0, dwarf_types := [] } < m.length + 1 := by
    have h1 : unvisited m { next := 0, dwarf_types := [] } ≤ (m.map Prod.fst).length :=
      List.length_filter_le _ _
    rw [List.length_map] at h1
    omega
  obtain ⟨st, hst⟩ := (visit_total m hcl (m.length + 1)).2 (m.map Prod.fst)
    { next := 0, dwarf_types := [] } h0 (fun n hn => Or.inr (Or.inl hn))
  have hinv : StInv m st := (visit_inv m (m.length + 1)).2 (m.map Prod.fst) _ st hst
    ⟨List.nodup_nil, List.nodup_nil, by intro p hp; cases hp⟩
  exact ⟨st, hst, listFold_covers hst, hinv.1, hinv.2.1,
    fun p hp => ⟨(hinv.2.2 p hp).2.1, (hinv.2.2 p hp).2.2⟩⟩

/-- C1 witness: a two-element catalogue with a pointer/struct cycle
(`ptr_node` points to `node`, whose field has type `ptr_node`). -/
def cyclicCatalogue : TypeMap :=
  [("node",
    .Structure
      { size := 8, anon := false,
        fields := [{ offset := 0, name := "next", typename := "ptr_node" }] }),
   ("ptr_node", .Pointer { size := 8, target := "node" })]

theorem resolveAll_terminates_one_to_one_witness :
    ∃ st, resolveAll cyclicCatalogue = .ok st ∧
      (∀ k ∈ cyclicCatalogue.map Prod.fst, k ≠ "" →
        (st.dwarf_types.lookup k).isSome = true) ∧
      (st.dwarf_types.map Prod.fst).Nodup ∧
      (st.dwarf_types.map Prod.snd).Nodup ∧
      ∀ p ∈ st.dwarf_types, p.1 ∈ cyclicCatalogue.map Prod.fst ∧ p.1 ≠ "" :=
  resolveAll_terminates_one_to_one cyclicCatalogue (by decide)

/-- C9: visiting a TypeName that a previous successful visit has already
registered returns at once with the state unchanged: no new entry is
created and the name keeps the same handle. -/
theorem visit_idempotent (m : TypeMap) (fuel : Nat) (st st1 : ResolveState)
    (name : String) (h1 : visit m fuel st name = .ok st1) (hne : name ≠ "") :
    visit m fuel st1 name = .ok st1 := by
  cases fuel with
  | zero => simp [visit] at h1
  | succ fuel => simp [visit, visit_covers h1 hne]

theorem visit_idempotent_witness :
    visit cyclicCatalogue 3
      { next := 2, dwarf_types := [("ptr_node", 1), ("node", 0)] } "node" =
      .ok { next := 2, dwarf_types := [("ptr_node", 1), ("node", 0)] } :=
  visit_idempotent cyclicCatalogue 3 { next := 0, dwarf_types := [] }
    { next := 2, dwarf_types := [("ptr_node", 1), ("node", 0)] } "node" rfl
    (by decide)

/-! ### The entry populator (second pass, main.rs:307-549)

The populator mutates each placeholder entry through
`dwarf.unit.get_mut`.  We model the effect on one catalogue entry as the
list of attributes set on the entry plus the list of children added to
it, in source order; each `dwarf_types.get(..).unwrap()` becomes an
`Except` failure carrying the missing name. -/

/-- The DWARF tags the populator attaches to entries and children. -/
inductive DwTag where
  | DW_TAG_member
  | DW_TAG_formal_parameter
  | DW_TAG_enumerator
  | DW_TAG_subrange_type
  | DW_TAG_variable
deriving DecidableEq

/-- The DWARF attribute kinds the populator sets. -/
inductive DwAt where
  | DW_AT_name
  | DW_AT_byte_size
  | DW_AT_encoding
  | DW_AT_type
  | DW_AT_data_member_location
  | DW_AT_prototyped
  | DW_AT_const_value
  | DW_AT_upper_bound
  | DW_AT_external
  | DW_AT_location
deriving DecidableEq

/-- Attribute values: `StringRef` stands for `dwarf.strings.add s`,
`UnitRef` for a reference to another entry's handle, `EncodingSigned b`
for `DW_ATE_signed`/`DW_ATE_unsigned`, `Exprloc a` for the one-op
`DW_OP_addr a` location expression. -/
inductive AttrValue where
  | StringRef (s : String)
  | Udata (n : Nat)
  | UnitRef (id : Nat)
  | EncodingSigned (signed : Bool)
  | Flag (b : Bool)
  | Exprloc (address : Nat)
deriving DecidableEq

/-- A child entry added under the populated entry. -/
structure ChildEntry where
  tag : DwTag
  attrs : List (DwAt × AttrValue)
deriving DecidableEq

/-- `dwarf_types.get(&k).unwrap()` (pervasive in main.rs:317-549): a hard
lookup whose failure aborts the run. -/
def look (dt : List (String × Nat)) (k : String) : Except String Nat :=
  match dt.lookup k with
  | some v => .ok v
  | none => .error k

/-- The backing-integer name `format!("{}int{}_t", ..)` (main.rs:309). -/
def baseTypeName (bytes : Nat) (signed : Bool) : String :=
  (if signed then "" else "u") ++ "int" ++ toString (bytes * 8) ++ "_t"

/-- The `base_type` closure (main.rs:307-315): a hard lookup of the
well-known integer TypeName of the given byte size and signedness. -/
def base_type (dt : List (String × Nat)) (bytes : Nat) (signed : Bool) :
    Except String Nat :=
  look dt (baseTypeName bytes signed)

/-- Rust `count - 1` on `u64` (main.rs:502) in release semantics: an
unchecked wrapping subtraction modulo `2 ^ 64`. -/
def u64_sub_one (count : Nat) : Nat :=
  (count + (2 ^ 64 - 1)) % 2 ^ 64

/-- The member children of a structure/union (main.rs:330-350): one
`DW_TAG_member` per field with name, type reference and offset, failing
on the first unresolvable field type. -/
def memberChildren (dt : List (String × Nat)) :
    List Field → Except String (List ChildEntry)
  | [] => .ok []
  | f :: fs =>
    match look dt f.typename with
    | .error e => .error e
    | .ok tid =>
      match memberChildren dt fs with
      | .error e => .error e
      | .ok rest =>
        .ok ({ tag := .DW_TAG_member,
               attrs := [(.DW_AT_name, .StringRef f.name),
                         (.DW_AT_type, .UnitRef tid),
                         (.DW_AT_data_member_location, .Udata f.offset)] } :: rest)

/-- The formal-parameter children of a function type (main.rs:436-449). -/
def paramChildren (dt : List (String × Nat)) :
    List Parameter → Except String (List ChildEntry)
  | [] => .ok []
  | p :: ps =>
    match look dt p.typename with
    | .error e => .error e
    | .ok tid =>
      match paramChildren dt ps with
      | .error e => .error e
      | .ok rest =>
        .ok ({ tag := .DW_TAG_formal_parameter,
               attrs := (if p.name.length > 0 then
                   [(.DW_AT_name, .StringRef p.name)] else []) ++
                 [(.DW_AT_type, .UnitRef tid)] } :: rest)

/-- The enumerator children of an enum (main.rs:476-484): infallible. -/
def enumChildren (fields : List EnumField) : List ChildEntry :=
  fields.map fun f =>
    { tag := .DW_TAG_enumerator,
      attrs := [(.DW_AT_name, .StringRef f.name),
                (.DW_AT_const_value, .Udata f.value)] }

/-- One arm of the populator loop (main.rs:317-506): the attributes set on
the entry registered under `name` and the children added to it, in source
order. -/
def populateType (dt : List (String × Nat)) (name : String) :
    BinjaType → Except String (List (DwAt × AttrValue) × List ChildEntry)
  | .Structure s =>
    match look dt name with
    | .error e => .error e
    | .ok _id =>
      match memberChildren dt s.fields with
      | .error e => .error e
      | .ok children =>
        .ok ((if s.anon then [] else [(.DW_AT_name, .StringRef name)]) ++
          [(.DW_AT_byte_size, .Udata s.size)], children)
  | .Union u =>
    match look dt name with
    | .error e => .error e
    | .ok _id =>
      match memberChildren dt u.fields with
      | .error e => .error e
      | .ok children =>
        .ok ((if u.anon then [] else [(.DW_AT_name, .StringRef name)]) ++
          [(.DW_AT_byte_size, .Udata u.size)], children)
  | .Integer i =>
    match look dt name with
    | .error e => .error e
    | .ok _id =>
      .ok ([(.DW_AT_name, .StringRef name),
            (.DW_AT_byte_size, .Udata i.size),
            (.DW_AT_encoding, .EncodingSigned i.signed)], [])
  | .Pointer p =>
    match look dt name with
    | .error e => .error e
    | .ok _id =>
      if p.target.length > 0 then
        match look dt p.target with
        | .error e => .error e
        | .ok tid =>
          .ok ([(.DW_AT_byte_size, .Udata p.size),
                (.DW_AT_type, .UnitRef tid)], [])
      else
        .ok ([(.DW_AT_byte_size, .Udata p.size)], [])
  | .Typedef td =>
    match look dt name with
    | .error e => .error e
    | .ok _id =>
      match look dt td.target with
      | .error e => .error e
      | .ok tid =>
        .ok ([(.DW_AT_name, .StringRef name),
              (.DW_AT_type, .UnitRef tid)], [])
  | .Function f =>
    match look dt name with
    | .error e => .error e
    | .ok _id =>
      match (if f.returntype.length > 0 then
          (look dt f.returntype).map some else .ok none) with
      | .error e => .error e
      | .ok rid =>
        match paramChildren dt f.parameters with
        | .error e => .error e
        | .ok children =>
          .ok ([(.DW_AT_prototyped, .Flag true)] ++
            (match rid with
             | some tid => [(.DW_AT_type, .UnitRef tid)]
             | none => []), children)
  | .Enum e =>
    match look dt name with
    | .error er => .error er
    | .ok _id =>
      match base_type dt e.size e.signed with
      | .error er => .error er
      | .ok bt =>
        .ok ([(.DW_AT_name, .StringRef name),
              (.DW_AT_byte_size, .Udata e.size),
              (.DW_AT_encoding, .EncodingSigned e.signed),
              (.DW_AT_type, .UnitRef bt)], enumChildren e.fields)
  | .Array a =>
    match look dt name with
    | .error e => .error e
    | .ok _id =>
      match look dt a.target with
      | .error e => .error e
      | .ok tid =>
        match base_type dt 8 false with
        | .error e => .error e
        | .ok bt =>
          .ok ([(.DW_AT_type, .UnitRef tid)],
            [{ tag := .DW_TAG_subrange_type,
               attrs := [(.DW_AT_type, .UnitRef bt),
                         (.DW_AT_upper_bound, .Udata (u64_sub_one a.count))] }])

/-- The global-variable loop body (main.rs:508-532): the attributes set on
a fresh root-level `DW_TAG_variable` entry. -/
def populateVariable (dt : List (String × Nat)) (address : Nat)
    (v : GlobalVariable) : Except String (List (DwAt × AttrValue)) :=
  if v.typename.length > 0 then
    match look dt v.typename with
    | .error e => .error e
    | .ok tid =>
      .ok [(.DW_AT_name, .StringRef v.name),
           (.DW_AT_type, .UnitRef tid),
           (.DW_AT_external, .Flag true),
           (.DW_AT_location, .Exprloc address)]
  else
    .ok [(.DW_AT_name, .StringRef v.name),
         (.DW_AT_external, .Flag true),
         (.DW_AT_location, .Exprloc address)]

/-- The TypeNames `populateType` hard-looks-up for a given catalogue
entry, besides the entry's own name. -/
def populateRefs : BinjaType → List String
  | .Structure s => s.fields.map (·.typename)
  | .Union u => u.fields.map (·.typename)
  | .Integer _ => []
  | .Pointer p => if p.target.length > 0 then [p.target] else []
  | .Typedef td => [td.target]
  | .Function f =>
    (if f.returntype.length > 0 then [f.returntype] else []) ++
      f.parameters.map (·.typename)
  | .Enum e => [baseTypeName e.size e.signed]
  | .Array a => [a.target, baseTypeName 8 false]

theorem look_isSome {dt : List (String × Nat)} {k : String} {v : Nat}
    (h : look dt k = .ok v) : (dt.lookup k).isSome = true := by
  unfold look at h
  cases hl : dt.lookup k with
  | none => rw [hl] at h; cases h
  | some w => rfl

theorem look_some {dt : List (String × Nat)} {k : String} {v : Nat}
    (h : look dt k = .ok v) : dt.lookup k = some v := by
  unfold look at h
  cases hl : dt.lookup k with
  | none => rw [hl] at h; cases h
  | some w => rw [hl] at h; cases h; rfl

theorem look_error_of_none {dt : List (String × Nat)} {k : String}
    (h : dt.lookup k = none) : look dt k = .error k := by
  unfold look
  rw [h]

theorem memberChildren_ok {dt : List (String × Nat)} : ∀ {fs : List Field}
    {cs : List ChildEntry}, memberChildren dt fs = .ok cs →
    ∀ f ∈ fs, (dt.lookup f.typename).isSome = true := by
  intro fs
  induction fs with
  | nil => intro cs h f hf; cases hf
  | cons f fs ih =>
    intro cs h g hg
    simp only [memberChildren] at h
    cases hl : look dt f.typename with
    | error e => rw [hl] at h; cases h
    | ok tid =>
      rw [hl] at h
      cases hr : memberChildren dt fs with
      | error e => rw [hr] at h; cases h
      | ok rest =>
        rcases List.mem_cons.1 hg with he | he
        · subst he
          exact look_isSome hl
        · exact ih hr g he

theorem paramChildren_ok {dt : List (String × Nat)} : ∀ {ps : List Parameter}
    {cs : List ChildEntry}, paramChildren dt ps = .ok cs →
    ∀ p ∈ ps, (dt.lookup p.typename).isSome = true := by
  intro ps
  induction ps with
  | nil => intro cs h p hp; cases hp
  | cons p ps ih =>
    intro cs h q hq
    simp only [paramChildren] at h
    cases hl : look dt p.typename with
    | error e => rw [hl] at h; cases h
    | ok tid =>
      rw [hl] at h
      cases hr : paramChildren dt ps with
      | error e => rw [hr] at h; cases h
      | ok rest =>
        rcases List.mem_cons.1 hq with he | he
        · subst he
          exact look_isSome hl
        · exact ih hr q he

/-- A successful `populateType` run resolved every reference it looks up. -/
theorem populateType_ok_refs {dt : List (String × Nat)} {name : String}
    {t : BinjaType} {res : List (DwAt × AttrValue) × List ChildEntry}
    (h : populateType dt name t = .ok res) :
    ∀ r ∈ populateRefs t, (dt.lookup r).isSome = true := by
  intro r hr
  cases t with
  | Structure s =>
    simp only [populateRefs] at hr
    simp only [populateType] at h
    cases hn : look dt name with
    | error e => rw [hn] at h; cases h
    | ok id0 =>
      rw [hn] at h
      cases hm : memberChildren dt s.fields with
      | error e => rw [hm] at h; cases h
      | ok cs =>
        rcases List.mem_map.1 hr with ⟨f, hf, rfl⟩
        exact memberChildren_ok hm f hf
  | Union u =>
    simp only [populateRefs] at hr
    simp only [populateType] at h
    cases hn : look dt name with
    | error e => rw [hn] at h; cases h
    | ok id0 =>
      rw [hn] at h
      cases hm : memberChildren dt u.fields with
      | error e => rw [hm] at h; cases h
      | ok cs =>
        rcases List.mem_map.1 hr with ⟨f, hf, rfl⟩
        exact memberChildren_ok hm f hf
  | Integer i => simp [populateRefs] at hr
  | Pointer p =>
    simp only [populateRefs] at hr
    simp only [populateType] at h
    cases hn : look dt name with
    | error e => rw [hn] at h; cases h
    | ok id0 =>
      rw [hn] at h
      by_cases hlen : p.target.length > 0
      · rw [if_pos hlen] at hr
        rw [if_pos hlen] at h
        cases hl : look dt p.target with
        | error e => rw [hl] at h; cases h
        | ok tid =>
          rcases List.mem_singleton.1 hr with rfl
          exact look_isSome hl
      · rw [if_neg hlen] at hr
        cases hr
  | Typedef td =>
    simp only [populateRefs] at hr
    simp only [populateType] at h
    cases hn : look dt name with
    | error e => rw [hn] at h; cases h
    | ok id0 =>
      rw [hn] at h
      cases hl : look dt td.target with
      | error e => rw [hl] at h; cases h
      | ok tid =>
        rcases List.mem_singleton.1 hr with rfl
        exact look_isSome hl
  | Function f =>
    simp only [populateRefs] at hr
    simp only [populateType] at h
    cases hn : look dt name with
    | error e => rw [hn] at h; cases h
    | ok id0 =>
      rw [hn] at h
      by_cases hlen : f.returntype.length > 0
      · rw [if_pos hlen] at hr
        rw [if_pos hlen] at h
        cases hl : look dt f.returntype with
        | error e => rw [hl] at h; cases h
        | ok tid =>
          rw [hl] at h
          simp only [Except.map] at h
          cases hp : paramChildren dt f.parameters with
          | error e => rw [hp] at h; cases h
          | ok cs =>
            rcases List.mem_append.1 hr with he | he
            · rcases List.mem_singleton.1 he with rfl
              exact look_isSome hl
            · rcases List.mem_map.1 he with ⟨q, hq, rfl⟩
              exact paramChildren_ok hp q hq
      · rw [if_neg hlen] at hr
        rw [if_neg hlen] at h
        cases hp : paramChildren dt f.parameters with
        | error e => rw [hp] at h; cases h
        | ok cs =>
          rcases List.mem_append.1 hr with he | he
          · cases he
          · rcases List.mem_map.1 he with ⟨q, hq, rfl⟩
            exact paramChildren_ok hp q hq
  | Enum e =>
    simp only [populateRefs] at hr
    simp only [populateType] at h
    cases hn : look dt name with
    | error er => rw [hn] at h; cases h
    | ok id0 =>
      rw [hn] at h
      cases hb : base_type dt e.size e.signed with
      | error er => rw [hb] at h; cases h
      | ok bt =>
        rcases List.mem_singleton.1 hr with rfl
        exact look_isSome hb
  | Array a =>
    simp only [populateRefs] at hr
    simp only [populateType] at h
    cases hn : look dt name with
    | error e => rw [hn] at h; cases h
    | ok id0 =>
      rw [hn] at h
      cases hl : look dt a.target with
      | error e => rw [hl] at h; cases h
      | ok tid =>
        rw [hl] at h
        cases hb : base_type dt 8 false with
        | error e => rw [hb] at h; cases h
        | ok bt =>
          rcases List.mem_cons.1 hr with he | he
          · subst he
            exact look_isSome hl
          · rcases List.mem_singleton.1 he with rfl
            exact look_isSome hb

/-- C4: a TypeName referenced by a type or global variable but absent from
the resolved name-to-entry map aborts the run: the resolver's
`mappings.get(name).unwrap()` panics on an unknown non-empty name, a
populator arm whose entry references an unregistered name returns an
error rather than a default or a silently dropped attribute, and so does
the global-variable populator. -/
theorem missing_reference_fatal :
    (∀ (m : TypeMap) (fuel : Nat) (st : ResolveState) (name : String),
      0 < fuel → name ≠ "" → st.dwarf_types.lookup name = none →
      m.lookup name = none → visit m fuel st name = .error (.missing name)) ∧
    (∀ (dt : List (String × Nat)) (name : String) (t : BinjaType) (r : String),
      r ∈ populateRefs t → dt.lookup r = none →
      ∃ e, populateType dt name t = .error e) ∧
    (∀ (dt : List (String × Nat)) (address : Nat) (v : GlobalVariable),
      v.typename ≠ "" → dt.lookup v.typename = none →
      populateVariable dt address v = .error v.typename) := by
  refine ⟨?_, ?_, ?_⟩
  · intro m fuel st name hf hne hnone hm
    cases fuel with
    | zero => cases hf
    | succ fuel =>
      simp only [visit]
      rw [if_neg (by
        rw [Bool.or_eq_true, not_or]
        constructor
        · rw [hnone]; simp
        · simpa using string_length_ne_zero hne), hm]
  · intro dt name t r hr hnone
    cases hp : populateType dt name t with
    | error e => exact ⟨e, rfl⟩
    | ok res =>
      have := populateType_ok_refs hp r hr
      rw [hnone] at this
      cases this
  · intro dt address v hne hnone
    unfold populateVariable
    rw [if_pos (Nat.pos_of_ne_zero (string_length_ne_zero hne)),
      look_error_of_none hnone]

theorem missing_reference_fatal_witness :
    visit [] 1 { next := 0, dwarf_types := [] } "ghost" = .error (.missing "ghost") ∧
    (∃ e, populateType [("td", 0)] "td"
      (.Typedef { target := "ghost" }) = .error e) ∧
    populateVariable [] 77 { name := "g", size := 4, typename := "ghost" } =
      .error "ghost" :=
  ⟨missing_reference_fatal.1 [] 1 { next := 0, dwarf_types := [] } "ghost"
      (by decide) (by decide) rfl rfl,
   missing_reference_fatal.2.1 [("td", 0)] "td" (.Typedef { target := "ghost" })
      "ghost" (by decide) rfl,
   missing_reference_fatal.2.2 [] 77 { name := "g", size := 4, typename := "ghost" }
      (by decide) rfl⟩

/-- C6: populating an Enum of byte size `s` and signedness `g` references
exactly the entry registered under `"int{8 s}_t"` (signed) or
`"uint{8 s}_t"` (unsigned), and if no such entry exists the run aborts
with an error instead of omitting the reference or substituting a
default. -/
theorem enum_base_type_lookup (dt : List (String × Nat)) (name : String)
    (e : Enum) :
    (∀ hid bt, dt.lookup name = some hid →
      dt.lookup (baseTypeName e.size e.signed) = some bt →
      populateType dt name (.Enum e) =
        .ok ([(.DW_AT_name, .StringRef name),
              (.DW_AT_byte_size, .Udata e.size),
              (.DW_AT_encoding, .EncodingSigned e.signed),
              (.DW_AT_type, .UnitRef bt)], enumChildren e.fields)) ∧
    (dt.lookup (baseTypeName e.size e.signed) = none →
      ∃ err, populateType dt name (.Enum e) = .error err) := by
  constructor
  · intro hid bt h1 h2
    simp only [populateType, base_type, look, h1, h2]
  · intro hnone
    cases hp : populateType dt name (.Enum e) with
    | error er => exact ⟨er, rfl⟩
    | ok res =>
      have := populateType_ok_refs hp (baseTypeName e.size e.signed)
        (by simp [populateRefs])
      rw [hnone] at this
      cases this

theorem enum_base_type_lookup_witness :
    populateType [("E", 1), ("uint32_t", 0)] "E"
        (.Enum { size := 4, signed := false, fields := [] }) =
      .ok ([(.DW_AT_name, .StringRef "E"),
            (.DW_AT_byte_size, .Udata 4),
            (.DW_AT_encoding, .EncodingSigned false),
            (.DW_AT_type, .UnitRef 0)], enumChildren []) ∧
    ∃ err, populateType [("E", 1)] "E"
        (.Enum { size := 4, signed := false, fields := [] }) = .error err :=
  ⟨(enum_base_type_lookup [("E", 1), ("uint32_t", 0)] "E"
      { size := 4, signed := false, fields := [] }).1 1 0 (by decide) (by decide),
   (enum_base_type_lookup [("E", 1)] "E"
      { size := 4, signed := false, fields := [] }).2 (by decide)⟩

/-- C7: populating an Array with `1 ≤ count < 2 ^ 64` sets the entry's
type-reference to the element type's handle and produces exactly one
subrange child referencing the `"uint64_t"` index type with upper bound
`count - 1`. -/
theorem array_subrange_upper_bound (dt : List (String × Nat)) (name : String)
    (a : Array) (hid tid bt : Nat)
    (h1 : dt.lookup name = some hid) (h2 : dt.lookup a.target = some tid)
    (h3 : dt.lookup "uint64_t" = some bt)
    (hc1 : 1 ≤ a.count) (hc2 : a.count < 2 ^ 64) :
    populateType dt name (.Array a) =
      .ok ([(.DW_AT_type, .UnitRef tid)],
        [{ tag := .DW_TAG_subrange_type,
           attrs := [(.DW_AT_type, .UnitRef bt),
                     (.DW_AT_upper_bound, .Udata (a.count - 1))] }]) := by
  have hb : baseTypeName 8 false = "uint64_t" := by decide
  have hw : u64_sub_one a.count = a.count - 1 := by
    unfold u64_sub_one
    omega
  simp only [populateType, base_type, hb, look, h1, h2, h3, hw]

theorem array_subrange_upper_bound_witness :
    populateType [("arr", 2), ("elem", 0), ("uint64_t", 1)] "arr"
        (.Array { count := 10, target := "elem" }) =
      .ok ([(.DW_AT_type, .UnitRef 0)],
        [{ tag := .DW_TAG_subrange_type,
           attrs := [(.DW_AT_type, .UnitRef 1),
                     (.DW_AT_upper_bound, .Udata 9)] }]) :=
  array_subrange_upper_bound [("arr", 2), ("elem", 0), ("uint64_t", 1)] "arr"
    { count := 10, target := "elem" } 2 0 1 (by decide) (by decide) (by decide)
    (by decide) (by decide)

/-- C10: an Array with `count = 0` is not rejected: the populator's
unchecked `u64` subtraction wraps, producing a subrange child whose upper
bound is `2 ^ 64 - 1` (release semantics; a debug build would panic at
the same subtraction). -/
theorem array_count_zero_wraps (dt : List (String × Nat)) (name target : String)
    (hid tid bt : Nat)
    (h1 : dt.lookup name = some hid) (h2 : dt.lookup target = some tid)
    (h3 : dt.lookup "uint64_t" = some bt) :
    populateType dt name (.Array { count := 0, target := target }) =
      .ok ([(.DW_AT_type, .UnitRef tid)],
        [{ tag := .DW_TAG_subrange_type,
           attrs := [(.DW_AT_type, .UnitRef bt),
                     (.DW_AT_upper_bound, .Udata (2 ^ 64 - 1))] }]) := by
  have hb : baseTypeName 8 false = "uint64_t" := by decide
  have hw : u64_sub_one 0 = 2 ^ 64 - 1 := by
    unfold u64_sub_one
    omega
  simp only [populateType, base_type, hb, look, h1, h2, h3, hw]

theorem array_count_zero_wraps_witness :
    populateType [("arr", 2), ("elem", 0), ("uint64_t", 1)] "arr"
        (.Array { count := 0, target := "elem" }) =
      .ok ([(.DW_AT_type, .UnitRef 0)],
        [{ tag := .DW_TAG_subrange_type,
           attrs := [(.DW_AT_type, .UnitRef 1),
                     (.DW_AT_upper_bound, .Udata (2 ^ 64 - 1))] }]) :=
  array_count_zero_wraps [("arr", 2), ("elem", 0), ("uint64_t", 1)] "arr" "elem"
    2 0 1 (by decide) (by decide) (by decide)

/-! ### The object assembler: string tables (main.rs:692-719)

Names are modelled as their byte sequences (`name.as_bytes()`): the file
is a byte stream, and `sh_name`/`st_name` offsets index into it.  The
section-name table is written as one leading NUL, then `".shstrtab"`
NUL-terminated (its own `sh_name` is recorded as offset 1), then every
key of the `sections` map NUL-terminated in iteration order, then one
closing NUL; each section's `sh_name` is recorded as the write position
minus the table start just before its name is written, and the section
headers later iterate the same map, so the i-th written header carries
the i-th recorded offset.  The symbol-name table (main.rs:709-719) is the
same without the `".shstrtab"` prefix. -/

/-- The concatenation of NUL-terminated names. -/
def strcat : List (List Nat) → List Nat
  | [] => []
  | n :: ns => n ++ 0 :: strcat ns

/-- The name-table offsets recorded for consecutive names written from
byte position `base` of the table: `stream_position() - sh_offset` just
before each name (main.rs:700, main.rs:715). -/
def nameOffsets (base : Nat) : List (List Nat) → List Nat
  | [] => []
  | n :: ns => base :: nameOffsets (base + n.length + 1) ns

/-- The bytes of `".shstrtab"` (main.rs:697). -/
def shstrtabBytes : List Nat := [46, 115, 104, 115, 116, 114, 116, 97, 98]

/-- The section-name string table (main.rs:694-704). -/
def sectionNamesTable (names : List (List Nat)) : List Nat :=
  0 :: (shstrtabBytes ++ 0 :: (strcat names ++ [0]))

/-- The `sh_name` offsets recorded for the sections map's keys: writing
starts after the leading NUL and the NUL-terminated `".shstrtab"`. -/
def sectionNameOffsets (names : List (List Nat)) : List Nat :=
  nameOffsets (shstrtabBytes.length + 2) names

/-- The symbol-name string table (main.rs:712-719). -/
def symbolNamesTable (names : List (List Nat)) : List Nat :=
  0 :: (strcat names ++ [0])

/-- The `st_name` offsets recorded for the symbols map's keys. -/
def symbolNameOffsets (names : List (List Nat)) : List Nat :=
  nameOffsets 1 names

/-- Reading a NUL-terminated string at a byte offset of a string table. -/
def readNulTerm (tbl : List Nat) (off : Nat) : List Nat :=
  (tbl.drop off).takeWhile (fun b => b != 0)

theorem takeWhile_name (n rest : List Nat) (hn : ∀ b ∈ n, b ≠ 0) :
    (n ++ 0 :: rest).takeWhile (fun b => b != 0) = n := by
  induction n with
  | nil => simp
  | cons a t ih =>
    have ha : (a != 0) = true := by
      simpa using hn a (List.mem_cons_self _ _)
    simp only [List.cons_append, List.takeWhile_cons, ha, if_true]
    rw [ih fun b hb => hn b (List.mem_cons_of_mem _ hb)]

theorem readNulTerm_strcat : ∀ (names : List (List Nat)) (pre suffix : List Nat),
    (∀ n ∈ names, ∀ b ∈ n, b ≠ 0) → ∀ i < names.length,
    readNulTerm (pre ++ (strcat names ++ suffix))
        ((nameOffsets pre.length names).getD i 0) =
      names.getD i [] := by
  intro names
  induction names with
  | nil =>
    intro pre suffix hnz i hi
    simp at hi
  | cons n ns ih =>
    intro pre suffix hnz i hi
    cases i with
    | zero =>
      simp only [nameOffsets, List.getD_cons_zero, strcat]
      unfold readNulTerm
      rw [show pre ++ ((n ++ 0 :: strcat ns) ++ suffix) =
          pre ++ (n ++ 0 :: (strcat ns ++ suffix)) by simp,
        show n ++ 0 :: (strcat ns ++ suffix) =
          (n ++ 0 :: (strcat ns ++ suffix)) from rfl]
      rw [List.drop_left pre _]
      exact takeWhile_name n _ (hnz n (List.mem_cons_self _ _))
    | succ j =>
      simp only [nameOffsets, List.getD_cons_succ, strcat]
      have hlen : (pre ++ (n ++ [0])).length = pre.length + n.length + 1 := by
        simp [List.length_append]
        omega
      have := ih (pre ++ (n ++ [0])) suffix
        (fun x hx => hnz x (List.mem_cons_of_mem _ hx)) j (by simpa using hi)
      rw [hlen] at this
      rw [show pre ++ ((n ++ 0 :: strcat ns) ++ suffix) =
          (pre ++ (n ++ [0])) ++ (strcat ns ++ suffix) by simp]
      exact this

/-- C2: every name-table offset the assembler records round-trips: for
each section name (and for `".shstrtab"` itself, recorded at offset 1)
reading a NUL-terminated string at its recorded `sh_name` offset in the
section-name table reproduces the name, and likewise each symbol's
recorded `st_name` offset in the symbol-name table; the i-th written
header carries the i-th recorded offset because both passes iterate the
same map in the same order.  Requires only that names contain no NUL
byte. -/
theorem name_offsets_roundtrip (secNames symNames : List (List Nat))
    (hsec : ∀ n ∈ secNames, ∀ b ∈ n, b ≠ 0)
    (hsym : ∀ n ∈ symNames, ∀ b ∈ n, b ≠ 0) :
    readNulTerm (sectionNamesTable secNames) 1 = shstrtabBytes ∧
    (∀ i < secNames.length,
      readNulTerm (sectionNamesTable secNames)
          ((sectionNameOffsets secNames).getD i 0) =
        secNames.getD i []) ∧
    (∀ i < symNames.length,
      readNulTerm (symbolNamesTable symNames)
          ((symbolNameOffsets symNames).getD i 0) =
        symNames.getD i []) := by
  refine ⟨?_, ?_, ?_⟩
  · unfold readNulTerm sectionNamesTable
    rw [show (0 : Nat) :: (shstrtabBytes ++ 0 :: (strcat secNames ++ [0])) =
        [0] ++ (shstrtabBytes ++ 0 :: (strcat secNames ++ [0])) from rfl,
      show (1 : Nat) = ([0] : List Nat).length from rfl, List.drop_left]
    exact takeWhile_name shstrtabBytes _ (by decide)
  · intro i hi
    have h := readNulTerm_strcat secNames (0 :: (shstrtabBytes ++ [0])) [0] hsec i hi
    rw [show (0 :: (shstrtabBytes ++ [0])).length = shstrtabBytes.length + 2 by
      simp] at h
    rw [show (0 : Nat) :: (shstrtabBytes ++ [0]) ++ (strcat secNames ++ [0]) =
        sectionNamesTable secNames by simp [sectionNamesTable]] at h
    exact h
  · intro i hi
    have h := readNulTerm_strcat symNames [0] [0] hsym i hi
    rw [show ([0] : List Nat).length = 1 from rfl] at h
    rw [show ([0] : List Nat) ++ (strcat symNames ++ [0]) =
        symbolNamesTable symNames by simp [symbolNamesTable]] at h
    exact h

/-- C2 witness: one section named `".text"` and one symbol named
`"g_flag"` (their UTF-8 bytes), both recovered at their recorded
offsets. -/
theorem name_offsets_roundtrip_witness :
    readNulTerm (sectionNamesTable [[46, 116, 101, 120, 116]]) 1 = shstrtabBytes ∧
    readNulTerm (sectionNamesTable [[46, 116, 101, 120, 116]])
        ((sectionNameOffsets [[46, 116, 101, 120, 116]]).getD 0 0) =
      [46, 116, 101, 120, 116] ∧
    readNulTerm (symbolNamesTable [[103, 95, 102, 108, 97, 103]])
        ((symbolNameOffsets [[103, 95, 102, 108, 97, 103]]).getD 0 0) =
      [103, 95, 102, 108, 97, 103] := by
  have h := name_offsets_roundtrip [[46, 116, 101, 120, 116]]
    [[103, 95, 102, 108, 97, 103]] (by decide) (by decide)
  exact ⟨h.1, h.2.1 0 (by decide), h.2.2 0 (by decide)⟩

/-! ### The object assembler: file header and section count
(main.rs:247-278, 611-687) -/

/-- `goblin::elf64::header::ET_REL`: relocatable-file type constant. -/
def ET_REL : Nat := 1

/-- `goblin::elf64::header::ET_EXEC`: executable-file type constant. -/
def ET_EXEC : Nat := 2

/-- `goblin::elf64::header::EM_X86_64`. -/
def EM_X86_64 : Nat := 62

/-- `goblin::elf64::header::SIZEOF_EHDR`. -/
def SIZEOF_EHDR : Nat := 64

/-- `goblin::elf64::section_header::SIZEOF_SHDR`. -/
def SIZEOF_SHDR : Nat := 64

/-- The semantic fields of `goblin::elf64::header::Header` the program
populates (the 16 `e_ident` bytes are elided: no claim concerns them). -/
structure Header where
  e_type : Nat
  e_machine : Nat
  e_version : Nat
  e_entry : Nat
  e_phoff : Nat
  e_shoff : Nat
  e_flags : Nat
  e_ehsize : Nat
  e_phentsize : Nat
  e_phnum : Nat
  e_shentsize : Nat
  e_shnum : Nat
  e_shstrndx : Nat
deriving DecidableEq

/-- The header literal built at main.rs:247-262. -/
def initialHeader : Header :=
  { e_type := ET_EXEC, e_machine := EM_X86_64, e_version := 1, e_entry := 0,
    e_phoff := 0, e_shoff := 0, e_flags := 0, e_ehsize := SIZEOF_EHDR,
    e_phentsize := 56, e_phnum := 0, e_shentsize := SIZEOF_SHDR,
    e_shnum := 0, e_shstrndx := 0 }

/-- `BTreeMap` key insertion at the key-set level: a repeated key
overwrites, a fresh key enlarges the map (order abstracted; no theorem
below depends on it). -/
def insertKey (k : String) (l : List String) : List String :=
  if k ∈ l then l else l ++ [k]

/-- The keys of the `sections` map at the moment the section count is
taken (main.rs:674): `".text"` inserted at main.rs:267, one key per debug
byte blob from the encoder (main.rs:615-630), `".symtab"` inserted at
main.rs:662. -/
def sectionKeys (dwarfNames : List String) : List String :=
  insertKey ".symtab" (dwarfNames.foldl (fun acc n => insertKey n acc)
    (insertKey ".text" []))

/-- The header as emitted (main.rs:662-687): `e_shnum` counts the null
section, the section-name table, the symbol-name table and every entry of
the `sections` map; the section table starts right after the header and
the section-name table is section index 1. -/
def finalHeader (dwarfNames : List String) : Header :=
  { initialHeader with
    e_shnum := initialHeader.e_shnum + 1 + 1 + 1 + (sectionKeys dwarfNames).length,
    e_shoff := SIZEOF_EHDR,
    e_shstrndx := 1 }

theorem mem_insertKey {x k : String} {l : List String} :
    x ∈ insertKey k l ↔ x = k ∨ x ∈ l := by
  unfold insertKey
  by_cases hk : k ∈ l
  · rw [if_pos hk]
    constructor
    · exact Or.inr
    · rintro (rfl | hx)
      · exact hk
      · exact hx
  · rw [if_neg hk]
    simp [List.mem_append, or_comm]

theorem length_insertKey_of_not_mem {k : String} {l : List String}
    (hk : k ∉ l) : (insertKey k l).length = l.length + 1 := by
  unfold insertKey
  rw [if_neg hk]
  simp

theorem mem_foldl_insertKey {x : String} : ∀ {dn : List String}
    {acc : List String},
    x ∈ dn.foldl (fun acc n => insertKey n acc) acc ↔ x ∈ acc ∨ x ∈ dn := by
  intro dn
  induction dn with
  | nil => simp
  | cons n dn ih =>
    intro acc
    simp only [List.foldl_cons, ih, mem_insertKey, List.mem_cons]
    tauto

theorem length_foldl_insertKey : ∀ {dn acc : List String}, dn.Nodup →
    (∀ n ∈ dn, n ∉ acc) →
    (dn.foldl (fun acc n => insertKey n acc) acc).length =
      acc.length + dn.length := by
  intro dn
  induction dn with
  | nil => simp
  | cons n dn ih =>
    intro acc hnd hdis
    simp only [List.foldl_cons]
    rw [ih (List.nodup_cons.1 hnd).2 (by
      intro x hx
      rw [mem_insertKey, not_or]
      exact ⟨fun he => (List.nodup_cons.1 hnd).1 (he ▸ hx),
        hdis x (List.mem_cons_of_mem _ hx)⟩)]
    rw [length_insertKey_of_not_mem (hdis n (List.mem_cons_self _ _))]
    simp only [List.length_cons]
    omega

/-- C3 counterexample: with a single debug blob the header's section
count is 6 — the claimed sum (null + two string tables + one blob +
symtab) is 5.  The discrepancy is the `".text"` section inserted at
main.rs:267, which the claim does not count. -/
theorem shnum_counterexample :
    (finalHeader [".debug_info"]).e_shnum ≠
      1 + 1 + 1 + [".debug_info"].length + 1 := by
  decide

/-- C3 amended: for distinct debug-blob names other than `".text"` and
`".symtab"`, the recorded section count is the null section, the
section-name table, the symbol-name table, one section per debug blob,
the symbol table — plus the one always-present `".text"` section. -/
theorem shnum_amended (dwarfNames : List String) (hnd : dwarfNames.Nodup)
    (ht : ".text" ∉ dwarfNames) (hs : ".symtab" ∉ dwarfNames) :
    (finalHeader dwarfNames).e_shnum =
      1 + 1 + 1 + dwarfNames.length + 1 + 1 := by
  have h1 : insertKey ".text" [] = [".text"] := rfl
  have h2 : (dwarfNames.foldl (fun acc n => insertKey n acc) [".text"]).length =
      1 + dwarfNames.length := by
    rw [length_foldl_insertKey hnd (by
      intro x hx
      simp only [List.mem_singleton]
      exact fun he => ht (he ▸ hx))]
    rfl
  have h3 : ".symtab" ∉ dwarfNames.foldl (fun acc n => insertKey n acc) [".text"] := by
    rw [mem_foldl_insertKey]
    rintro (h | h)
    · simp at h
    · exact hs h
  show initialHeader.e_shnum + 1 + 1 + 1 + (sectionKeys dwarfNames).length = _
  unfold sectionKeys
  rw [h1, length_insertKey_of_not_mem h3, h2]
  show 0 + 1 + 1 + 1 + (1 + dwarfNames.length + 1) = _
  omega

theorem shnum_amended_witness :
    (finalHeader [".debug_info", ".debug_abbrev"]).e_shnum =
      1 + 1 + 1 + [".debug_info", ".debug_abbrev"].length + 1 + 1 :=
  shnum_amended [".debug_info", ".debug_abbrev"] (by decide) (by decide)
    (by decide)

/-- C5 counterexample: the emitted header's object-file type is
`ET_EXEC` (2), not the relocatable constant `ET_REL` (1). -/
theorem etype_counterexample : (finalHeader []).e_type ≠ ET_REL := by decide

/-- C5 amended: the emitted header marks the file as an executable
(`e_type = ET_EXEC`), not as a relocatable object. -/
theorem etype_exec (dwarfNames : List String) :
    (finalHeader dwarfNames).e_type = ET_EXEC := rfl

/-! ### The object assembler: symbol records (main.rs:508-549, 723-726) -/

/-- The semantic fields of `goblin::elf64::sym::Sym`. -/
structure RawSymbol where
  st_name : Nat
  st_info : Nat
  st_other : Nat
  st_shndx : Nat
  st_value : Nat
  st_size : Nat
deriving DecidableEq

/-- The symbol record built for one global variable (main.rs:534-548):
`st_info = 0x11` is global binding (0x10) | object type (0x01); the
section index is left 0; value is the variable's address and size its
declared size.  `st_name` is 0 here and patched while the symbol-name
table is written (main.rs:715). -/
def mkSymbol (address : Nat) (v : GlobalVariable) : RawSymbol :=
  { st_name := 0, st_info := 0x11, st_other := 0, st_shndx := 0,
    st_size := v.size, st_value := address }

/-- `BTreeMap::insert` keyed by name on an association list (iteration
order abstracted; no theorem below depends on it). -/
def insertA {α : Type} (k : String) (v : α) : List (String × α) → List (String × α)
  | [] => [(k, v)]
  | p :: rest => if p.1 = k then (k, v) :: rest else p :: insertA k v rest

/-- The symbol-accumulation loop (main.rs:508-549): one
`symbols.insert(name, ..)` per global variable of the address-keyed
variables map. -/
def buildSymbols (vars : List (Nat × GlobalVariable)) : List (String × RawSymbol) :=
  vars.foldl (fun acc p => insertA p.2.name (mkSymbol p.1 p.2) acc) []

theorem filter_key_nil {α : Type} {k : String} : ∀ {l : List (String × α)},
    k ∉ l.map Prod.fst → l.filter (fun q => q.1 == k) = [] := by
  intro l
  induction l with
  | nil => intro _; rfl
  | cons p rest ih =>
    intro hk
    simp only [List.map_cons, List.mem_cons, not_or] at hk
    rw [List.filter_cons_of_neg (by
      rw [beq_iff_eq]
      exact fun he => hk.1 he.symm)]
    exact ih hk.2

theorem insertA_cons_eq {α : Type} {k : String} {v : α} {p : String × α}
    {rest : List (String × α)} (hp : p.1 = k) :
    insertA k v (p :: rest) = (k, v) :: rest := by
  simp [insertA, hp]

theorem insertA_cons_ne {α : Type} {k : String} {v : α} {p : String × α}
    {rest : List (String × α)} (hp : p.1 ≠ k) :
    insertA k v (p :: rest) = p :: insertA k v rest := by
  simp [insertA, hp]

theorem keys_mem_insertA {α : Type} {x k : String} {v : α} :
    ∀ {l : List (String × α)},
    x ∈ (insertA k v l).map Prod.fst ↔ x = k ∨ x ∈ l.map Prod.fst := by
  intro l
  induction l with
  | nil => simp [insertA]
  | cons p rest ih =>
    by_cases hp : p.1 = k
    · rw [insertA_cons_eq hp]
      simp only [List.map_cons, List.mem_cons, hp]
      tauto
    · rw [insertA_cons_ne hp]
      simp only [List.map_cons, List.mem_cons, ih]
      tauto

theorem nodup_keys_insertA {α : Type} {k : String} {v : α} :
    ∀ {l : List (String × α)},
    (l.map Prod.fst).Nodup → ((insertA k v l).map Prod.fst).Nodup := by
  intro l
  induction l with
  | nil => intro _; simp [insertA]
  | cons p rest ih =>
    intro h
    rw [List.map_cons, List.nodup_cons] at h
    by_cases hp : p.1 = k
    · rw [insertA_cons_eq hp, List.map_cons, List.nodup_cons]
      exact ⟨hp ▸ h.1, h.2⟩
    · rw [insertA_cons_ne hp, List.map_cons, List.nodup_cons]
      refine ⟨?_, ih h.2⟩
      intro hmem
      rcases keys_mem_insertA.1 hmem with he | hm
      · exact hp he
      · exact h.1 hm

theorem filter_insertA_self {α : Type} {k : String} {v : α} :
    ∀ {l : List (String × α)}, (l.map Prod.fst).Nodup →
    (insertA k v l).filter (fun q => q.1 == k) = [(k, v)] := by
  intro l
  induction l with
  | nil => intro _; simp [insertA]
  | cons p rest ih =>
    intro h
    rw [List.map_cons, List.nodup_cons] at h
    by_cases hp : p.1 = k
    · rw [insertA_cons_eq hp, List.filter_cons_of_pos (by simp)]
      rw [filter_key_nil (hp ▸ h.1)]
    · rw [insertA_cons_ne hp,
        List.filter_cons_of_neg (by rw [beq_iff_eq]; exact hp)]
      exact ih h.2

theorem filter_insertA_other {α : Type} {k k' : String} {v : α} (hkk : k' ≠ k) :
    ∀ {l : List (String × α)},
    (insertA k v l).filter (fun q => q.1 == k') =
      l.filter (fun q => q.1 == k') := by
  intro l
  induction l with
  | nil =>
    simp only [insertA]
    rw [List.filter_cons_of_neg (by
      rw [beq_iff_eq]
      exact fun he => hkk he.symm)]
  | cons p rest ih =>
    by_cases hp : p.1 = k
    · rw [insertA_cons_eq hp,
        List.filter_cons_of_neg (by
          rw [beq_iff_eq]
          exact fun he => hkk he.symm),
        List.filter_cons_of_neg (by
          rw [beq_iff_eq, hp]
          exact fun he => hkk he.symm)]
    · rw [insertA_cons_ne hp]
      by_cases hpk : p.1 = k'
      · rw [List.filter_cons_of_pos (by simp [hpk]),
          List.filter_cons_of_pos (by simp [hpk]), ih]
      · rw [List.filter_cons_of_neg (by rw [beq_iff_eq]; exact hpk),
          List.filter_cons_of_neg (by rw [beq_iff_eq]; exact hpk)]
        exact ih

theorem foldl_symbols_filter_other (k : String) :
    ∀ (vars : List (Nat × GlobalVariable)) (acc : List (String × RawSymbol)),
    (∀ p ∈ vars, p.2.name ≠ k) →
    (vars.foldl (fun acc q => insertA q.2.name (mkSymbol q.1 q.2) acc)
        acc).filter (fun q => q.1 == k) =
      acc.filter (fun q => q.1 == k) := by
  intro vars
  induction vars with
  | nil => intro acc _; rfl
  | cons a rest ih =>
    intro acc hdis
    simp only [List.foldl_cons]
    rw [ih _ fun p hp => hdis p (List.mem_cons_of_mem _ hp)]
    exact filter_insertA_other
      (fun he => hdis a (List.mem_cons_self _ _) he.symm)

theorem foldl_symbols_filter : ∀ (vars : List (Nat × GlobalVariable))
    (acc : List (String × RawSymbol)),
    (vars.map (fun p => p.2.name)).Nodup →
    (acc.map Prod.fst).Nodup →
    ∀ addr v, (addr, v) ∈ vars →
      (vars.foldl (fun acc q => insertA q.2.name (mkSymbol q.1 q.2) acc)
          acc).filter (fun q => q.1 == v.name) =
        [(v.name, mkSymbol addr v)] := by
  intro vars
  induction vars with
  | nil =>
    intro acc _ _ addr v hv
    cases hv
  | cons a rest ih =>
    intro acc hnd hacc addr v hv
    rw [List.map_cons, List.nodup_cons] at hnd
    simp only [List.foldl_cons]
    rcases List.mem_cons.1 hv with he | he
    · obtain ⟨a1, a2⟩ := a
      injection he with h1 h2
      subst h1
      subst h2
      rw [foldl_symbols_filter_other v.name rest _ (by
        intro p hp he2
        exact hnd.1 (he2 ▸ List.mem_map.2 ⟨p, hp, rfl⟩))]
      exact filter_insertA_self hacc
    · exact ih _ hnd.2 (nodup_keys_insertA hacc) addr v he

theorem mem_insertA {α : Type} {q : String × α} {k : String} {v : α} :
    ∀ {l : List (String × α)}, q ∈ insertA k v l → q = (k, v) ∨ q ∈ l := by
  intro l
  induction l with
  | nil =>
    intro h
    simpa [insertA] using h
  | cons p rest ih =>
    intro h
    by_cases hp : p.1 = k
    · rw [insertA_cons_eq hp] at h
      rcases List.mem_cons.1 h with he | hm
      · exact Or.inl he
      · exact Or.inr (List.mem_cons_of_mem _ hm)
    · rw [insertA_cons_ne hp] at h
      rcases List.mem_cons.1 h with he | hm
      · exact Or.inr (he ▸ List.mem_cons_self _ _)
      · rcases ih hm with he | hmm
        · exact Or.inl he
        · exact Or.inr (List.mem_cons_of_mem _ hmm)

theorem foldl_symbols_shndx : ∀ (vars : List (Nat × GlobalVariable))
    (acc : List (String × RawSymbol)),
    (∀ q ∈ acc, q.2.st_shndx = 0) →
    ∀ q ∈ vars.foldl (fun acc p => insertA p.2.name (mkSymbol p.1 p.2) acc) acc,
      q.2.st_shndx = 0 := by
  intro vars
  induction vars with
  | nil =>
    intro acc hacc q hq
    exact hacc q hq
  | cons a rest ih =>
    intro acc hacc q hq
    simp only [List.foldl_cons] at hq
    refine ih _ ?_ q hq
    intro r hr
    rcases mem_insertA hr with he | hm
    · rw [he]
      rfl
    · exact hacc r hm

/-- C8: for pairwise-distinct variable names, each global variable with
name `n`, size `z` and address `a` yields exactly one symbol record keyed
by `n`, with value `a`, size `z`, info `0x11` (global binding | object
type) and section index 0 — and every emitted symbol record leaves the
section index at 0. -/
theorem global_symbol_record (vars : List (Nat × GlobalVariable))
    (hnd : (vars.map (fun p => p.2.name)).Nodup) :
    (∀ addr v, (addr, v) ∈ vars →
      (buildSymbols vars).filter (fun q => q.1 == v.name) =
        [(v.name, { st_name := 0, st_info := 0x11, st_other := 0,
                    st_shndx := 0, st_size := v.size, st_value := addr })]) ∧
    ∀ q ∈ buildSymbols vars, q.2.st_shndx = 0 := by
  constructor
  · intro addr v hv
    exact foldl_symbols_filter vars [] hnd (by simp) addr v hv
  · exact foldl_symbols_shndx vars [] (by intro q hq; cases hq)

/-- C8 witness: the spec's example variable `"g_flag"`, size 4, address
`0x404040`. -/
theorem global_symbol_record_witness :
    (buildSymbols
        [(0x404040, { name := "g_flag", size := 4, typename := "" })]).filter
        (fun q => q.1 == "g_flag") =
      [("g_flag", { st_name := 0, st_info := 0x11, st_other := 0,
                    st_shndx := 0, st_size := 4, st_value := 0x404040 })] :=
  (global_symbol_record
      [(0x404040, { name := "g_flag", size := 4, typename := "" })]
      (by decide)).1 0x404040
    { name := "g_flag", size := 4, typename := "" } (by decide)

end Teemo
